import Mathlib

/-!
# Verification of the yamlviewer lazy-tree / round-trip core

Shallow embedding of `src/yamlviewer/yamlviewer.py`:

* `Value` is the Generic Value of the data model (mappings, sequences,
  scalars; scalars are carried as their display strings).
* A block-style YAML codec is modelled at the granularity of logical
  lines (`Line`), since the PyYAML library used by `load`/`save` is not
  part of the repository's sources.  `serializeB` models
  `yaml.dump(..., default_flow_style=False)` and `parseDoc` models
  `yaml.load(..., Loader=MapLoader)` on untagged block documents.
* `Node` models a `QTreeWidgetItem` row together with its entry in the
  viewer's `_item_map` registry (`act`) and whether it is the synthetic
  "marker" placeholder child.
* `populateNode`, `expandedNode`, `expandAllItems`, `loadSteps`,
  `item_to_dict` and `tree_to_yaml` embed the corresponding Python
  functions.
-/

/-- Generic Value: tagged union over mappings (insertion-ordered entry
lists), sequences and scalars.  Scalars hold the display string. -/
inductive Value where
  | scalar (s : String)
  | mapping (es : List (String × Value))
  | sequence (xs : List Value)

mutual
/-- `true` when the value contains no `Value.sequence` anywhere. -/
def noSeq : Value → Bool
  | .scalar _ => true
  | .mapping es => noSeqL es
  | .sequence _ => false
def noSeqL : List (String × Value) → Bool
  | [] => true
  | (_, v) :: es => noSeq v && noSeqL es
end

/-!
## Block-style YAML codec, modelled at line granularity

Modelled from the spec: the PyYAML codec invoked by `YamlViewer.load`
(`yaml.load(s, Loader=MapLoader)`) and `tree_to_yaml`
(`yaml.dump(root_dict, default_flow_style=False)`) is not part of the
repository's sources.  Following §4.1 of the spec, `serialize` renders a
generic value in block (non-flow) style — one logical line per mapping
entry or sequence item, children indented one unit deeper — and `parse`
reads such text back.  A document is modelled as its list of logical
lines; a line payload is kept structured (a scalar string, an inline
empty flow container `{}`/`[]`, or nothing for a nested block), which
abstracts PyYAML's scalar quoting ("up to scalar string formatting").
-/

/-- One logical line of a block-style YAML document. -/
inductive Line where
  /-- `k: s` — mapping entry with inline scalar value. -/
  | entryScalar (i : Nat) (k s : String)
  /-- `k: {}` — mapping entry whose value is an empty mapping. -/
  | entryEmptyMap (i : Nat) (k : String)
  /-- `k: []` — mapping entry whose value is an empty sequence. -/
  | entryEmptySeq (i : Nat) (k : String)
  /-- `k:` — mapping entry whose value is the nested block at indent `i+1`. -/
  | entryBlock (i : Nat) (k : String)
  /-- `- s` — sequence item with inline scalar value. -/
  | itemScalar (i : Nat) (s : String)
  /-- `- {}` — sequence item that is an empty mapping. -/
  | itemEmptyMap (i : Nat)
  /-- `- []` — sequence item that is an empty sequence. -/
  | itemEmptySeq (i : Nat)
  /-- `-` — sequence item given by the nested block at indent `i+1`. -/
  | itemBlock (i : Nat)
  /-- a document consisting of a single bare scalar. -/
  | docScalar (s : String)
  /-- `{}` — a document consisting of the empty mapping. -/
  | docEmptyMap
  /-- `[]` — a document consisting of the empty sequence. -/
  | docEmptySeq
deriving DecidableEq

/-- Indentation depth of a line (document-level forms sit at indent 0). -/
def lineIndent : Line → Nat
  | .entryScalar i _ _ => i
  | .entryEmptyMap i _ => i
  | .entryEmptySeq i _ => i
  | .entryBlock i _ => i
  | .itemScalar i _ => i
  | .itemEmptyMap i => i
  | .itemEmptySeq i => i
  | .itemBlock i => i
  | .docScalar _ => 0
  | .docEmptyMap => 0
  | .docEmptySeq => 0

/-- Is this line a mapping-entry form (`k: …`)? -/
def Line.isEntry : Line → Bool
  | .entryScalar _ _ _ => true
  | .entryEmptyMap _ _ => true
  | .entryEmptySeq _ _ => true
  | .entryBlock _ _ => true
  | _ => false

/-- Is this line a sequence-item form (`- …`)? -/
def Line.isItem : Line → Bool
  | .itemScalar _ _ => true
  | .itemEmptyMap _ => true
  | .itemEmptySeq _ => true
  | .itemBlock _ => true
  | _ => false

/-- Does the line sit strictly deeper than indent `i`? -/
def deeper (i : Nat) (l : Line) : Bool := i < lineIndent l

mutual
/-- Lines for one mapping entry `k: v` at indent `i` (block style). -/
def entryLines (i : Nat) (k : String) : Value → List Line
  | .scalar s => [.entryScalar i k s]
  | .mapping [] => [.entryEmptyMap i k]
  | .mapping (e :: es) => .entryBlock i k :: entriesLines (i + 1) (e :: es)
  | .sequence [] => [.entryEmptySeq i k]
  | .sequence (x :: xs) => .entryBlock i k :: itemsLines (i + 1) (x :: xs)
/-- Lines for a list of mapping entries at indent `i`. -/
def entriesLines (i : Nat) : List (String × Value) → List Line
  | [] => []
  | (k, v) :: es => entryLines i k v ++ entriesLines i es
/-- Lines for one sequence item at indent `i` (block style). -/
def itemLines (i : Nat) : Value → List Line
  | .scalar s => [.itemScalar i s]
  | .mapping [] => [.itemEmptyMap i]
  | .mapping (e :: es) => .itemBlock i :: entriesLines (i + 1) (e :: es)
  | .sequence [] => [.itemEmptySeq i]
  | .sequence (x :: xs) => .itemBlock i :: itemsLines (i + 1) (x :: xs)
/-- Lines for a list of sequence items at indent `i`. -/
def itemsLines (i : Nat) : List Value → List Line
  | [] => []
  | x :: xs => itemLines i x ++ itemsLines i xs
end

/-- `serialize`: render a generic value as a block-style document. -/
def serializeB : Value → List Line
  | .scalar s => [.docScalar s]
  | .mapping [] => [.docEmptyMap]
  | .mapping (e :: es) => entriesLines 0 (e :: es)
  | .sequence [] => [.docEmptySeq]
  | .sequence (x :: xs) => itemsLines 0 (x :: xs)

mutual
/-- Parse consecutive mapping entries at indent `i`; all given lines must
belong to this block.  `fuel` bounds the recursion depth; every recursive
call is on a strictly shorter list, so `length + 1` fuel always suffices
(see `parseDoc`). -/
def parseEntriesF : Nat → Nat → List Line → Option (List (String × Value))
  | 0, _, _ => none
  | _ + 1, _, [] => some []
  | fuel + 1, i, l :: rest =>
    match l with
    | .entryScalar j k s =>
      if j = i then (parseEntriesF fuel i rest).map (fun es => (k, .scalar s) :: es) else none
    | .entryEmptyMap j k =>
      if j = i then (parseEntriesF fuel i rest).map (fun es => (k, .mapping []) :: es) else none
    | .entryEmptySeq j k =>
      if j = i then (parseEntriesF fuel i rest).map (fun es => (k, .sequence []) :: es) else none
    | .entryBlock j k =>
      if j = i then
        let sub := rest.takeWhile (deeper i)
        let rest2 := rest.dropWhile (deeper i)
        match sub with
        | [] => none
        | l2 :: _ =>
          if l2.isEntry then
            (parseEntriesF fuel (i + 1) sub).bind fun inner =>
              (parseEntriesF fuel i rest2).map fun es => (k, .mapping inner) :: es
          else if l2.isItem then
            (parseItemsF fuel (i + 1) sub).bind fun inner =>
              (parseEntriesF fuel i rest2).map fun es => (k, .sequence inner) :: es
          else none
      else none
    | _ => none
/-- Parse consecutive sequence items at indent `i` (same conventions). -/
def parseItemsF : Nat → Nat → List Line → Option (List Value)
  | 0, _, _ => none
  | _ + 1, _, [] => some []
  | fuel + 1, i, l :: rest =>
    match l with
    | .itemScalar j s =>
      if j = i then (parseItemsF fuel i rest).map (fun xs => Value.scalar s :: xs) else none
    | .itemEmptyMap j =>
      if j = i then (parseItemsF fuel i rest).map (fun xs => Value.mapping [] :: xs) else none
    | .itemEmptySeq j =>
      if j = i then (parseItemsF fuel i rest).map (fun xs => Value.sequence [] :: xs) else none
    | .itemBlock j =>
      if j = i then
        let sub := rest.takeWhile (deeper i)
        let rest2 := rest.dropWhile (deeper i)
        match sub with
        | [] => none
        | l2 :: _ =>
          if l2.isEntry then
            (parseEntriesF fuel (i + 1) sub).bind fun inner =>
              (parseItemsF fuel i rest2).map fun xs => Value.mapping inner :: xs
          else if l2.isItem then
            (parseItemsF fuel (i + 1) sub).bind fun inner =>
              (parseItemsF fuel i rest2).map fun xs => Value.sequence inner :: xs
          else none
      else none
    | _ => none
end

/-- Parse a non-degenerate block at indent `i` (a mapping or a sequence,
according to the form of its first line). -/
def parseBlockF (fuel i : Nat) (ls : List Line) : Option Value :=
  match ls with
  | [] => none
  | l :: _ =>
    if l.isEntry then (parseEntriesF fuel i ls).map Value.mapping
    else if l.isItem then (parseItemsF fuel i ls).map Value.sequence
    else none

/-- `parse`: read a whole block-style document back into a generic value. -/
def parseDoc (ls : List Line) : Option Value :=
  match ls with
  | [.docScalar s] => some (.scalar s)
  | [.docEmptyMap] => some (.mapping [])
  | [.docEmptySeq] => some (.sequence [])
  | _ => parseBlockF (ls.length + 1) 0 ls

/-!
## The lazy tree model

A `Node` embeds one `QTreeWidgetItem` together with the viewer's
bookkeeping for it: `text0`/`text1` are the two display columns
(`item.text(0)`/`item.text(1)`), `marker` says whether the item is a
synthetic `"marker"` placeholder child, `act` is the item's entry in the
`_item_map` registry (`none` when the item is not registered — a lookup
on such an item in `YamlViewer.expanded` would raise `KeyError`), and
`children` is the ordered child list.  The registry is keyed by item
identity in Python; since every item carries exactly one registry entry,
it is embedded as a per-item field. -/

/-- A registered action: `good` is the no-op `YamlViewer.good`; `pop v`
is the closure `lambda item, x=x, v=v: self.populate(v, x, z)` bound to
the item itself and its marker child. -/
inductive Act where
  | good
  | pop (v : Value)

/-- One tree row plus its registry entry (see module comment). -/
inductive Node where
  | mk (text0 text1 : String) (marker : Bool) (act : Option Act) (children : List Node)

def Node.text0 : Node → String
  | .mk a _ _ _ _ => a

def Node.text1 : Node → String
  | .mk _ a _ _ _ => a

def Node.marker : Node → Bool
  | .mk _ _ a _ _ => a

def Node.act : Node → Option Act
  | .mk _ _ _ a _ => a

def Node.children : Node → List Node
  | .mk _ _ _ _ a => a

/-- The synthetic placeholder child `QtWidgets.QTreeWidgetItem(["marker"])`:
one display column, never entered into `_item_map`. -/
def markerNode : Node := .mk "marker" "" true none []

/-- `enumerate` with string keys `"%u" % n` starting at `i`. -/
def enumStrFrom (i : Nat) : List Value → List (String × Value)
  | [] => []
  | v :: vs => (toString i, v) :: enumStrFrom (i + 1) vs

/-- The entries `populate` iterates over: key/value pairs of a mapping in
insertion order, or sequence elements labelled by their decimal index;
scalars contribute none (the two trailing `if` branches of `populate`). -/
def entriesOf : Value → List (String × Value)
  | .scalar _ => []
  | .mapping es => es
  | .sequence xs => enumStrFrom 0 xs

/-- The list summary text `"(list with %u item%s)"`. -/
def listSummary (n : Nat) : String :=
  "(list with " ++ toString n ++ " item" ++ (if n = 1 then "" else "s") ++ ")"

/-- The child item built by `populate`'s local `add(k, v)`: containers get
one column of text, a fresh marker child and a registered population
closure (for lists additionally the summary in column 1); scalars become
leaves displaying `"%s" % v` with the no-op registered. -/
def childOf (k : String) (v : Value) : Node :=
  match v with
  | .scalar s => .mk k s false (some .good) []
  | .mapping _ => .mk k "" false (some (.pop v)) [markerNode]
  | .sequence xs => .mk k (listSummary xs.length) false (some (.pop v)) [markerNode]

/-- `item.removeChild(z)` for the captured marker `z`: drop the first
placeholder child (a node holds at most one). -/
def removeMarker : List Node → List Node
  | [] => []
  | c :: cs => if c.marker then cs else c :: removeMarker cs

/-- `YamlViewer.populate(content, item, ch)`: remove the placeholder,
re-register the item as `good`, then append one child per entry. -/
def populateNode (content : Value) (n : Node) : Node :=
  match n with
  | .mk t0 t1 m _ cs =>
    .mk t0 t1 m (some .good)
      (removeMarker cs ++ (entriesOf content).map (fun p => childOf p.1 p.2))

/-- Invoke a registered action on the item it is registered for. -/
def runAct (n : Node) : Act → Node
  | .good => n
  | .pop v => populateNode v n

/-- `YamlViewer.expanded(item)`: look the item up in `_item_map` and run
the handler; `none` models the `KeyError` on an unregistered item. -/
def expandedNode (n : Node) : Option Node :=
  (n.act).map (runAct n)

/-- `YamlViewer.expand_all_items(item)`: `setExpanded(True)` (which
dispatches the item's registered handler synchronously through
`expanded`) and then recurse into the — by then materialized — children.
`fuel` bounds the recursion depth; any fuel at least the document depth
behaves like the Python recursion (which terminates because each pending
closure holds a strictly smaller subvalue). -/
def expandAllItems : Nat → Node → Node
  | 0, n => n
  | fuel + 1, n =>
    let n1 := match n.act with
              | some a => runAct n a
              | none => n
    .mk n1.text0 n1.text1 n1.marker n1.act ((n1.children).map (expandAllItems fuel))

/-- `result[key] = value` on a Python dict kept as an insertion-ordered
association list: replace in place if the key is present, else append. -/
def dictInsert (m : List (String × Value)) (k : String) (v : Value) : List (String × Value) :=
  if m.any (fun p => p.1 == k) then
    m.map (fun p => if p.1 == k then (k, v) else p)
  else m ++ [(k, v)]

mutual
/-- `tree_to_yaml.item_to_dict(item)`: leaves yield their column-1 text,
anything with children yields the dict built key-by-key from the
children in order. -/
def item_to_dict : Node → Value
  | .mk _ t1 _ _ [] => .scalar t1
  | .mk _ _ _ _ (c :: cs) => .mapping (childFold (c :: cs) [])
/-- The `for i in range(item.childCount())` loop of `item_to_dict` (and of
`tree_to_yaml` itself): successive `result[key] = value` updates. -/
def childFold : List Node → List (String × Value) → List (String × Value)
  | [], acc => acc
  | c :: cs, acc => childFold cs (dictInsert acc c.text0 (item_to_dict c))
end

/-- The `root_dict` that `tree_to_yaml` assembles from the root's children. -/
def tree_root_value (root : Node) : Value := .mapping (childFold root.children [])

/-- `tree_to_yaml(item)`: convert the tree below `item` and dump it. -/
def tree_to_yaml (root : Node) : List Line := serializeB (tree_root_value root)

/-- The viewer's document state: the invisible root item, the recorded
current path `_fname` and the last parsed document `_content`. -/
structure Viewer where
  root : Node
  fname : Option String
  content : Option Value

/-- The success path of `YamlViewer.load(fname)` after parsing produced
`v`: record `_content`, clear the root (`takeChildren`), populate it
(the constructor's `_marker` was never attached, so `removeChild` is a
no-op), record `_fname`, and expand every item. -/
def loadOk (vw : Viewer) (v : Value) (path : String) (fuel : Nat) : Viewer :=
  let r0 : Node := .mk vw.root.text0 vw.root.text1 vw.root.marker vw.root.act []
  let r1 := populateNode v r0
  { root := expandAllItems fuel r1, fname := some path, content := some v }

/-- `YamlViewer.load(fname)` with its fallible steps explicit, mirroring
statement order: the file read (`none` when `open`/`read` raises) and the
parse happen before any mutation, so an exception there (`false` flag)
leaves the state exactly as it was. -/
def loadSteps (vw : Viewer) (readRes : Option (List Line)) (path : String) (fuel : Nat) :
    Viewer × Bool :=
  match readRes with
  | none => (vw, false)
  | some ls =>
    match parseDoc ls with
    | none => (vw, false)
    | some v => (loadOk vw v path fuel, true)

/-- Is the value a container (Mapping or Sequence)? -/
def Value.isContainer : Value → Bool
  | .scalar _ => false
  | .mapping _ => true
  | .sequence _ => true

/-- The Python dict built from an association list by successive
`result[key] = value` updates (insertion order, last write wins). -/
def pyDict (l : List (String × Value)) : List (String × Value) :=
  l.foldl (fun acc p => dictInsert acc p.1 p.2) []

/-- The entry list of a mapping value (empty for other shapes). -/
def mapEntries : Value → List (String × Value)
  | .mapping es => es
  | _ => []

/-!
## Auxiliary notions for the load/save theorems -/

mutual
/-- Nesting depth of a value (scalars are at depth 0). -/
def depthV : Value → Nat
  | .scalar _ => 0
  | .mapping es => depthL es + 1
  | .sequence xs => depthS xs + 1
def depthL : List (String × Value) → Nat
  | [] => 0
  | (_, v) :: es => max (depthV v) (depthL es)
def depthS : List Value → Nat
  | [] => 0
  | v :: vs => max (depthV v) (depthS vs)
end

/-- No string occurs twice in the list. -/
def nodupB : List String → Bool
  | [] => true
  | k :: ks => (!ks.contains k) && nodupB ks

mutual
/-- Structural well-formedness under which a loaded-then-saved document
keeps all its data: every container is nonempty and presents pairwise
distinct child labels (mapping keys are distinct — automatic for a value
produced by parsing, since PyYAML mappings are dicts — and so are the
decimal index labels of a sequence). -/
def wfV : Value → Bool
  | .scalar _ => true
  | .mapping es => !es.isEmpty && nodupB ((entriesOf (.mapping es)).map Prod.fst) && wfL es
  | .sequence xs => !xs.isEmpty && nodupB ((entriesOf (.sequence xs)).map Prod.fst) && wfS xs
def wfL : List (String × Value) → Bool
  | [] => true
  | (_, v) :: es => wfV v && wfL es
def wfS : List Value → Bool
  | [] => true
  | v :: vs => wfV v && wfS vs
end

mutual
/-- What a document becomes after the viewer's lossy tree passage:
sequences are flattened into mappings keyed by their decimal indices
(the known converter asymmetry, spec §9); mappings and scalars keep
their shape. -/
def flattenV : Value → Value
  | .scalar s => .scalar s
  | .mapping es => .mapping (flattenL es)
  | .sequence xs => .mapping (flattenSeq 0 xs)
def flattenL : List (String × Value) → List (String × Value)
  | [] => []
  | (k, v) :: es => (k, flattenV v) :: flattenL es
def flattenSeq (i : Nat) : List Value → List (String × Value)
  | [] => []
  | v :: vs => (toString i, flattenV v) :: flattenSeq (i + 1) vs
end

mutual
/-- No placeholder child survives anywhere in the subtree. -/
def noMarkerDeep : Node → Bool
  | .mk _ _ m _ cs => !m && noMarkerDeepL cs
def noMarkerDeepL : List Node → Bool
  | [] => true
  | c :: cs => noMarkerDeep c && noMarkerDeepL cs
end

/-!
## The construction stage of `parse`

Modelled from the spec: the PyYAML composer/constructor pipeline behind
`yaml.load(s, Loader=MapLoader)` is not in the repository's sources; only
the `MapLoader` subclass is (lines 179–185).  A `YNode` is a composed
YAML node carrying its resolved tag.  Per spec §4.1/§6, construction
turns every mapping-like node — whatever its tag, and in particular the
`tag:yaml.org,2002:python/object…` family that `MapLoader.construct_x`
routes to `construct_mapping` — into a plain mapping, every sequence
node into a plain sequence, and every scalar node into its string form;
no custom type is ever instantiated (the result type `Value` has no
other constructors). -/
inductive YNode where
  | yscalar (tag : String) (s : String)
  | ymap (tag : String) (entries : List (String × YNode))
  | yseq (tag : String) (elems : List YNode)

mutual
/-- Construct a generic value from a composed node (see above). -/
def constructNode : YNode → Value
  | .yscalar _ s => .scalar s
  | .ymap _ es => .mapping (constructEntries es)
  | .yseq _ xs => .sequence (constructElems xs)
def constructEntries : List (String × YNode) → List (String × Value)
  | [] => []
  | (k, n) :: es => (k, constructNode n) :: constructEntries es
def constructElems : List YNode → List Value
  | [] => []
  | n :: ns => constructNode n :: constructElems ns
end

/-- The document of the spec's example scenario,
`{"a": 1, "b": {"c": 2, "d": 3}, "e": [4, 5]}` (scalars are carried as
their display strings). -/
def exampleDoc : Value :=
  .mapping [("a", .scalar "1"),
            ("b", .mapping [("c", .scalar "2"), ("d", .scalar "3")]),
            ("e", .sequence [.scalar "4", .scalar "5"])]

/-- The root after `populate(exampleDoc, root, marker)` on a cleared root. -/
def exampleRoot : Node := populateNode exampleDoc (.mk "" "" false none [])

/-!
## Helper lemmas -/

theorem noSeqL_append (a b : List (String × Value)) :
    noSeqL (a ++ b) = (noSeqL a && noSeqL b) := by
  induction a with
  | nil => simp [noSeqL]
  | cons p a ih => cases p; simp [noSeqL, ih, Bool.and_assoc]

theorem noSeqL_map_replace (acc : List (String × Value)) (k : String) (v : Value)
    (hacc : noSeqL acc = true) (hv : noSeq v = true) :
    noSeqL (acc.map fun p => if p.1 == k then (k, v) else p) = true := by
  induction acc with
  | nil => simp [noSeqL]
  | cons p acc ih =>
    cases p with
    | mk k2 v2 =>
      simp only [noSeqL, Bool.and_eq_true] at hacc
      simp only [List.map_cons]
      split
      · simp only [noSeqL, Bool.and_eq_true]
        exact ⟨hv, by simpa using ih hacc.2⟩
      · simp only [noSeqL, Bool.and_eq_true]
        exact ⟨hacc.1, by simpa using ih hacc.2⟩

theorem noSeqL_dictInsert (acc : List (String × Value)) (k : String) (v : Value)
    (hacc : noSeqL acc = true) (hv : noSeq v = true) :
    noSeqL (dictInsert acc k v) = true := by
  unfold dictInsert
  split
  · exact noSeqL_map_replace acc k v hacc hv
  · simp [noSeqL_append, noSeqL, hacc, hv]

mutual
theorem noSeq_item_to_dict (n : Node) : noSeq (item_to_dict n) = true := by
  match n with
  | .mk t0 t1 m a [] => simp [item_to_dict, noSeq]
  | .mk t0 t1 m a (c :: cs) =>
    simp only [item_to_dict, noSeq]
    exact noSeq_childFold (c :: cs) [] rfl
theorem noSeq_childFold (cs : List Node) (acc : List (String × Value))
    (hacc : noSeqL acc = true) : noSeqL (childFold cs acc) = true := by
  match cs with
  | [] => simpa [childFold] using hacc
  | c :: cs =>
    simp only [childFold]
    exact noSeq_childFold cs _ (noSeqL_dictInsert _ _ _ hacc (noSeq_item_to_dict c))
end

theorem childFold_eq_foldl (cs : List Node) (acc : List (String × Value)) :
    childFold cs acc =
      (cs.map fun c => (c.text0, item_to_dict c)).foldl
        (fun acc p => dictInsert acc p.1 p.2) acc := by
  induction cs generalizing acc with
  | nil => simp [childFold]
  | cons c cs ih => simp [childFold, ih]

theorem childOf_marker (k : String) (v : Value) : (childOf k v).marker = false := by
  cases v <;> rfl

theorem lookup_map_replace_self (acc : List (String × Value)) (k : String) (v : Value)
    (h : acc.any (fun p => p.1 == k) = true) :
    List.lookup k (acc.map fun p => if p.1 == k then (k, v) else p) = some v := by
  induction acc with
  | nil => simp at h
  | cons p acc ih =>
    obtain ⟨k2, v2⟩ := p
    simp only [List.any_cons, Bool.or_eq_true] at h
    simp only [List.map_cons]
    split
    case isTrue hb => simp [List.lookup]
    case isFalse hb =>
      have hk2 : ¬ k2 = k := fun he => hb (by simp [he])
      have h2 : acc.any (fun p => p.1 == k) = true := by
        rcases h with h | h
        · exact absurd (by simpa using h) hk2
        · exact h
      have hkk : (k == k2) = false := by simp [Ne.symm hk2]
      simp only [List.lookup, hkk]
      exact ih h2

theorem lookup_append_self (acc : List (String × Value)) (k : String) (v : Value)
    (h : acc.any (fun p => p.1 == k) = false) :
    List.lookup k (acc ++ [(k, v)]) = some v := by
  induction acc with
  | nil => simp [List.lookup]
  | cons p acc ih =>
    obtain ⟨k2, v2⟩ := p
    simp only [List.any_cons, Bool.or_eq_false_iff] at h
    have hkk : (k == k2) = false := by
      have h1 : (k2 == k) = false := h.1
      have : ¬ k2 = k := by simpa using h1
      simp [Ne.symm this]
    simp only [List.cons_append, List.lookup, hkk]
    exact ih h.2

/-- `lookup` after a `result[key] = value` update at the same key. -/
theorem lookup_dictInsert_self (acc : List (String × Value)) (k : String) (v : Value) :
    List.lookup k (dictInsert acc k v) = some v := by
  unfold dictInsert
  split
  case isTrue h => exact lookup_map_replace_self acc k v h
  case isFalse h =>
    exact lookup_append_self acc k v (by simp only [Bool.not_eq_true] at h; exact h)

theorem lookup_map_replace_other (acc : List (String × Value)) (k k2 : String) (v : Value)
    (hne : ¬ k = k2) :
    List.lookup k (acc.map fun p => if p.1 == k2 then (k2, v) else p) =
      List.lookup k acc := by
  induction acc with
  | nil => rfl
  | cons p acc ih =>
    obtain ⟨k3, v3⟩ := p
    simp only [List.map_cons]
    split
    case isTrue hb =>
      have hk3 : k3 = k2 := by simpa using hb
      have hkk2 : (k == k2) = false := by simp [hne]
      have hkk3 : (k == k3) = false := by rw [hk3]; exact hkk2
      simp only [List.lookup, hkk2, hkk3]
      exact ih
    case isFalse hb =>
      simp only [List.lookup]
      cases hkk : k == k3
      · exact ih
      · rfl

theorem lookup_append_other (acc : List (String × Value)) (k k2 : String) (v : Value)
    (hne : ¬ k = k2) :
    List.lookup k (acc ++ [(k2, v)]) = List.lookup k acc := by
  induction acc with
  | nil =>
    have hkk : (k == k2) = false := by simpa using hne
    simp [List.lookup, hkk]
  | cons p acc ih =>
    obtain ⟨k3, v3⟩ := p
    simp only [List.cons_append, List.lookup]
    cases hkk : k == k3
    · exact ih
    · rfl

/-- `lookup` after a `result[key] = value` update at a different key. -/
theorem lookup_dictInsert_other (acc : List (String × Value)) (k k2 : String) (v : Value)
    (hne : ¬ k = k2) :
    List.lookup k (dictInsert acc k2 v) = List.lookup k acc := by
  unfold dictInsert
  split
  · exact lookup_map_replace_other acc k k2 v hne
  · exact lookup_append_other acc k k2 v hne

/-- In the dict built by the converter's loop, a key is bound to the
conversion of the last child carrying that label. -/
theorem lookup_childFold (cs : List Node) (acc : List (String × Value)) (k : String) :
    List.lookup k (childFold cs acc) =
      match (cs.filter fun c => c.text0 == k).getLast? with
      | some c => some (item_to_dict c)
      | none => List.lookup k acc := by
  induction cs generalizing acc with
  | nil => simp [childFold]
  | cons c cs ih =>
    simp only [childFold, List.filter_cons]
    rw [ih]
    cases hlast : (cs.filter fun c => c.text0 == k).getLast? with
    | some c2 =>
      by_cases hb : (c.text0 == k) = true
      · simp only [hb, if_true]
        cases hfil : cs.filter fun c => c.text0 == k with
        | nil => rw [hfil] at hlast; simp at hlast
        | cons x l =>
          rw [hfil] at hlast
          rw [List.getLast?_cons_cons, hlast]
      · simp only [hb, Bool.false_eq_true, if_false, hlast]
    | none =>
      have hfil : (cs.filter fun c => c.text0 == k) = [] :=
        List.getLast?_eq_none_iff.mp hlast
      by_cases hb : (c.text0 == k) = true
      · have hk : c.text0 = k := by simpa using hb
        simp only [hb, if_true, hfil]
        rw [show ([c].getLast? : Option Node) = some c from rfl]
        rw [← hk, lookup_dictInsert_self]
      · have hk : ¬ k = c.text0 := fun h => hb (by simp [h])
        simp only [hb, Bool.false_eq_true, if_false, hfil, hlast]
        exact lookup_dictInsert_other acc k c.text0 (item_to_dict c) hk


mutual
theorem entryLines_indent (v : Value) (i : Nat) (k : String) (l : Line)
    (h : l ∈ entryLines i k v) : i ≤ lineIndent l := by
  match v with
  | .scalar s =>
    simp only [entryLines, List.mem_singleton] at h
    subst h
    simp [lineIndent]
  | .mapping [] =>
    simp only [entryLines, List.mem_singleton] at h
    subst h
    simp [lineIndent]
  | .mapping (e :: es) =>
    simp only [entryLines, List.mem_cons] at h
    rcases h with rfl | h
    · simp [lineIndent]
    · exact Nat.le_of_succ_le (entriesLines_indent (e :: es) (i + 1) l h)
  | .sequence [] =>
    simp only [entryLines, List.mem_singleton] at h
    subst h
    simp [lineIndent]
  | .sequence (x :: xs) =>
    simp only [entryLines, List.mem_cons] at h
    rcases h with rfl | h
    · simp [lineIndent]
    · exact Nat.le_of_succ_le (itemsLines_indent (x :: xs) (i + 1) l h)
theorem entriesLines_indent (es : List (String × Value)) (i : Nat) (l : Line)
    (h : l ∈ entriesLines i es) : i ≤ lineIndent l := by
  match es with
  | [] => simp [entriesLines] at h
  | (k, v) :: es =>
    simp only [entriesLines, List.mem_append] at h
    rcases h with h | h
    · exact entryLines_indent v i k l h
    · exact entriesLines_indent es i l h
theorem itemLines_indent (v : Value) (i : Nat) (l : Line)
    (h : l ∈ itemLines i v) : i ≤ lineIndent l := by
  match v with
  | .scalar s =>
    simp only [itemLines, List.mem_singleton] at h
    subst h
    simp [lineIndent]
  | .mapping [] =>
    simp only [itemLines, List.mem_singleton] at h
    subst h
    simp [lineIndent]
  | .mapping (e :: es) =>
    simp only [itemLines, List.mem_cons] at h
    rcases h with rfl | h
    · simp [lineIndent]
    · exact Nat.le_of_succ_le (entriesLines_indent (e :: es) (i + 1) l h)
  | .sequence [] =>
    simp only [itemLines, List.mem_singleton] at h
    subst h
    simp [lineIndent]
  | .sequence (x :: xs) =>
    simp only [itemLines, List.mem_cons] at h
    rcases h with rfl | h
    · simp [lineIndent]
    · exact Nat.le_of_succ_le (itemsLines_indent (x :: xs) (i + 1) l h)
theorem itemsLines_indent (xs : List Value) (i : Nat) (l : Line)
    (h : l ∈ itemsLines i xs) : i ≤ lineIndent l := by
  match xs with
  | [] => simp [itemsLines] at h
  | x :: xs =>
    simp only [itemsLines, List.mem_append] at h
    rcases h with h | h
    · exact itemLines_indent x i l h
    · exact itemsLines_indent xs i l h
end

/-- The first line of a nonempty entry block is an entry form at its own
indent. -/
theorem entriesLines_cons_shape (k : String) (v : Value) (es : List (String × Value))
    (i : Nat) :
    ∃ l ls, entriesLines i ((k, v) :: es) = l :: ls ∧ lineIndent l = i ∧
      l.isEntry = true := by
  cases v with
  | scalar s => exact ⟨.entryScalar i k s, _, rfl, rfl, rfl⟩
  | mapping es2 =>
    cases es2 with
    | nil => exact ⟨.entryEmptyMap i k, _, rfl, rfl, rfl⟩
    | cons e es2 => exact ⟨.entryBlock i k, _, rfl, rfl, rfl⟩
  | sequence xs =>
    cases xs with
    | nil => exact ⟨.entryEmptySeq i k, _, rfl, rfl, rfl⟩
    | cons x xs => exact ⟨.entryBlock i k, _, rfl, rfl, rfl⟩

theorem takeWhile_append_all {α : Type} (p : α → Bool) (xs ys : List α)
    (hxs : ∀ x ∈ xs, p x = true) (hys : ∀ y, ys.head? = some y → p y = false) :
    (xs ++ ys).takeWhile p = xs ∧ (xs ++ ys).dropWhile p = ys := by
  induction xs with
  | nil =>
    simp only [List.nil_append]
    cases ys with
    | nil => simp
    | cons y ys =>
      have hy := hys y rfl
      simp [List.takeWhile_cons, List.dropWhile_cons, hy]
  | cons x xs ih =>
    have hx := hxs x (by simp)
    have ih2 := ih (fun a ha => hxs a (by simp [ha]))
    simp [List.cons_append, List.takeWhile_cons, List.dropWhile_cons, hx, ih2.1, ih2.2]

/-- The parser inverts the serializer on sequence-free entry lists. -/
theorem parseEntriesF_round (fuel : Nat) : ∀ (es : List (String × Value)) (i : Nat),
    noSeqL es = true → (entriesLines i es).length < fuel →
    parseEntriesF fuel i (entriesLines i es) = some es := by
  induction fuel with
  | zero =>
    intro es i _ hfuel
    exact absurd hfuel (by omega)
  | succ fuel ih =>
    intro es i hns hfuel
    match es with
    | [] => simp [entriesLines, parseEntriesF]
    | (k, v) :: es2 =>
      have hns1 : noSeq v = true ∧ noSeqL es2 = true := by
        simpa [noSeqL, Bool.and_eq_true] using hns
      cases v with
      | scalar s =>
        have hlen : (entriesLines i es2).length < fuel := by
          simp only [entriesLines, entryLines, List.length_append,
            List.length_cons, List.length_nil] at hfuel
          omega
        simp only [entriesLines, entryLines, List.singleton_append]
        simp [parseEntriesF, ih es2 i hns1.2 hlen]
      | sequence xs => simp [noSeq] at hns1
      | mapping esInner =>
        cases esInner with
        | nil =>
          have hlen : (entriesLines i es2).length < fuel := by
            simp only [entriesLines, entryLines, List.length_append,
              List.length_cons, List.length_nil] at hfuel
            omega
          simp only [entriesLines, entryLines, List.singleton_append]
          simp [parseEntriesF, ih es2 i hns1.2 hlen]
        | cons e esInner =>
          obtain ⟨ke, ve⟩ := e
          have hA : ∀ l ∈ entriesLines (i + 1) ((ke, ve) :: esInner),
              deeper i l = true := by
            intro l hl
            have := entriesLines_indent _ _ _ hl
            simp only [deeper, decide_eq_true_eq]
            omega
          have hB : ∀ y, (entriesLines i es2).head? = some y → deeper i y = false := by
            intro y hy
            cases es2 with
            | nil => simp [entriesLines] at hy
            | cons e2 es3 =>
              obtain ⟨k2, v2⟩ := e2
              obtain ⟨l2, ls2, hB2, hBind, _⟩ := entriesLines_cons_shape k2 v2 es3 i
              rw [hB2] at hy
              simp only [List.head?_cons, Option.some.injEq] at hy
              subst hy
              simp [deeper, hBind]
          have hsplit := takeWhile_append_all (deeper i)
            (entriesLines (i + 1) ((ke, ve) :: esInner)) (entriesLines i es2) hA hB
          obtain ⟨lA, lsA, hA2, _, hAent⟩ := entriesLines_cons_shape ke ve esInner (i + 1)
          have hexp : entriesLines i ((k, Value.mapping ((ke, ve) :: esInner)) :: es2) =
              Line.entryBlock i k ::
                (entriesLines (i + 1) ((ke, ve) :: esInner) ++ entriesLines i es2) := by
            simp [entriesLines, entryLines]
          have hfuel2 : (entriesLines (i + 1) ((ke, ve) :: esInner)).length +
              (entriesLines i es2).length < fuel := by
            rw [hexp] at hfuel
            simp only [List.length_cons, List.length_append] at hfuel
            omega
          have hnsInner : noSeqL ((ke, ve) :: esInner) = true := by
            have := hns1.1
            simpa [noSeq] using this
          have ihA : parseEntriesF fuel (i + 1) (lA :: lsA) =
              some ((ke, ve) :: esInner) := by
            rw [← hA2]
            exact ih _ _ hnsInner (by omega)
          have ihB : parseEntriesF fuel i (entriesLines i es2) = some es2 :=
            ih _ _ hns1.2 (by omega)
          rw [hexp]
          simp only [parseEntriesF]
          simp only [eq_self_iff_true, if_true]
          rw [hsplit.1, hsplit.2, hA2]
          simp [hAent, ihA, ihB]

/-- A document whose first line is an entry form parses as a mapping
block. -/
theorem parseDoc_entry (l : Line) (ls : List Line) (hent : l.isEntry = true) :
    parseDoc (l :: ls) =
      (parseEntriesF ((l :: ls).length + 1) 0 (l :: ls)).map Value.mapping := by
  cases l
  all_goals first
    | rfl
    | simp [Line.isEntry] at hent

theorem nodupB_iff (ks : List String) : nodupB ks = true ↔ ks.Nodup := by
  induction ks with
  | nil => simp [nodupB]
  | cons k ks ih => simp [nodupB, ih, List.nodup_cons]

theorem keys_map_replace (acc : List (String × Value)) (k : String) (v : Value) :
    (acc.map fun p => if p.1 == k then (k, v) else p).map Prod.fst = acc.map Prod.fst := by
  induction acc with
  | nil => rfl
  | cons p acc ih =>
    obtain ⟨k2, v2⟩ := p
    have hhead :
        ((if ((k2, v2).1 == k) = true then (k, v) else (k2, v2)) : String × Value).1 = k2 := by
      split
      case isTrue hb =>
        have hk : k2 = k := by simpa using hb
        exact hk.symm
      case isFalse hb => rfl
    simp only [List.map_cons, hhead, ih]

theorem keys_dictInsert_nodup (acc : List (String × Value)) (k : String) (v : Value)
    (h : (acc.map Prod.fst).Nodup) : ((dictInsert acc k v).map Prod.fst).Nodup := by
  unfold dictInsert
  split
  case isTrue hany => rw [keys_map_replace]; exact h
  case isFalse hany =>
    have hk : k ∉ acc.map Prod.fst := by
      intro hm
      apply hany
      simp only [List.any_eq_true]
      obtain ⟨p, hp, he⟩ := List.mem_map.mp hm
      exact ⟨p, hp, by simp [he]⟩
    simp [List.nodup_append, h, hk]

theorem childFold_keys_nodup (cs : List Node) (acc : List (String × Value))
    (h : (acc.map Prod.fst).Nodup) : ((childFold cs acc).map Prod.fst).Nodup := by
  induction cs generalizing acc with
  | nil => simpa [childFold] using h
  | cons c cs ih =>
    simp only [childFold]
    exact ih _ (keys_dictInsert_nodup _ _ _ h)

theorem depthL_mem (es : List (String × Value)) (p : String × Value) (h : p ∈ es) :
    depthV p.2 ≤ depthL es := by
  induction es with
  | nil => simp at h
  | cons q es ih =>
    obtain ⟨k, v⟩ := q
    rcases List.mem_cons.mp h with rfl | h
    · simp [depthL]
    · exact le_trans (ih h) (by simp [depthL])

theorem depthS_enum (xs : List Value) : ∀ (j : Nat) (p : String × Value),
    p ∈ enumStrFrom j xs → depthV p.2 ≤ depthS xs := by
  induction xs with
  | nil => intro j p h; simp [enumStrFrom] at h
  | cons x xs ih =>
    intro j p h
    rcases List.mem_cons.mp (by simpa [enumStrFrom] using h) with rfl | h
    · simp [depthS]
    · exact le_trans (ih (j + 1) p h) (by simp [depthS])

/-- Each entry of a container is strictly shallower than the container. -/
theorem entriesOf_depth (v : Value) (p : String × Value) (hp : p ∈ entriesOf v) :
    depthV p.2 < depthV v := by
  cases v with
  | scalar s => simp [entriesOf] at hp
  | mapping es =>
    have := depthL_mem es p hp
    simp only [depthV]
    omega
  | sequence xs =>
    have := depthS_enum xs 0 p hp
    simp only [depthV]
    omega

theorem wfL_mem (es : List (String × Value)) (p : String × Value) (h : p ∈ es)
    (hw : wfL es = true) : wfV p.2 = true := by
  induction es with
  | nil => simp at h
  | cons q es ih =>
    obtain ⟨k, v⟩ := q
    simp only [wfL, Bool.and_eq_true] at hw
    rcases List.mem_cons.mp h with rfl | h
    · exact hw.1
    · exact ih h hw.2

theorem wfS_enum (xs : List Value) : ∀ (j : Nat) (p : String × Value),
    p ∈ enumStrFrom j xs → wfS xs = true → wfV p.2 = true := by
  induction xs with
  | nil => intro j p h _; simp [enumStrFrom] at h
  | cons x xs ih =>
    intro j p h hw
    simp only [wfS, Bool.and_eq_true] at hw
    rcases List.mem_cons.mp (by simpa [enumStrFrom] using h) with rfl | h
    · exact hw.1
    · exact ih (j + 1) p h hw.2

/-- Well-formedness is inherited by the entries of a container. -/
theorem entriesOf_wf (v : Value) (p : String × Value) (hp : p ∈ entriesOf v)
    (hw : wfV v = true) : wfV p.2 = true := by
  cases v with
  | scalar s => simp [entriesOf] at hp
  | mapping es =>
    simp only [wfV, Bool.and_eq_true] at hw
    exact wfL_mem es p hp hw.2
  | sequence xs =>
    simp only [wfV, Bool.and_eq_true] at hw
    exact wfS_enum xs 0 p hp hw.2

theorem flattenL_eq_map (es : List (String × Value)) :
    flattenL es = es.map (fun p => (p.1, flattenV p.2)) := by
  induction es with
  | nil => rfl
  | cons p es ih =>
    obtain ⟨k, v⟩ := p
    simp [flattenL, ih]

theorem flattenSeq_eq_map (xs : List Value) : ∀ (j : Nat),
    flattenSeq j xs = (enumStrFrom j xs).map (fun p => (p.1, flattenV p.2)) := by
  induction xs with
  | nil => intro j; rfl
  | cons x xs ih => intro j; simp [flattenSeq, enumStrFrom, ih]

/-- For a container, flattening maps `flattenV` over its entries. -/
theorem flattenV_container (v : Value) (hv : v.isContainer = true) :
    flattenV v = .mapping ((entriesOf v).map fun p => (p.1, flattenV p.2)) := by
  cases v with
  | scalar s => simp [Value.isContainer] at hv
  | mapping es => simp [flattenV, entriesOf, flattenL_eq_map]
  | sequence xs => simp [flattenV, entriesOf, flattenSeq_eq_map]

theorem noMarkerDeepL_forall (ns : List Node)
    (h : ∀ n ∈ ns, noMarkerDeep n = true) : noMarkerDeepL ns = true := by
  induction ns with
  | nil => rfl
  | cons n ns ih =>
    simp only [noMarkerDeepL, Bool.and_eq_true]
    exact ⟨h n (by simp), ih (fun m hm => h m (by simp [hm]))⟩

theorem any_key_eq_false (acc : List (String × Value)) (k : String)
    (h : ∀ p ∈ acc, ¬ p.1 = k) : acc.any (fun p => p.1 == k) = false := by
  simp only [List.any_eq_false]
  intro p hp
  simpa using h p hp

/-- With pairwise distinct labels and none of them already present, the
converter's loop appends the children's conversions in order. -/
theorem childFold_nodup_eq (cs : List Node) : ∀ (acc : List (String × Value)),
    (cs.map Node.text0).Nodup →
    (∀ c ∈ cs, acc.any (fun p => p.1 == c.text0) = false) →
    childFold cs acc = acc ++ cs.map (fun c => (c.text0, item_to_dict c)) := by
  induction cs with
  | nil => intro acc _ _; simp [childFold]
  | cons c cs ih =>
    intro acc hnd hdisj
    simp only [List.map_cons, List.nodup_cons] at hnd
    have hins : dictInsert acc c.text0 (item_to_dict c) =
        acc ++ [(c.text0, item_to_dict c)] := by
      unfold dictInsert
      rw [if_neg]
      rw [hdisj c (by simp)]
      simp
    simp only [childFold, hins]
    rw [ih (acc ++ [(c.text0, item_to_dict c)]) hnd.2]
    · simp
    · intro c2 hc2
      have h1 : acc.any (fun p => p.1 == c2.text0) = false :=
        hdisj c2 (by simp [hc2])
      have h2 : ¬ c2.text0 = c.text0 := by
        intro he
        exact hnd.1 (by rw [← he]; exact List.mem_map_of_mem _ hc2)
      have h3 : ¬ c.text0 = c2.text0 := fun he => h2 he.symm
      simp [List.any_append, h1, h3]

theorem item_to_dict_cons_children (t0 t1 : String) (m : Bool) (a : Option Act)
    (cs : List Node) (h : cs ≠ []) :
    item_to_dict (.mk t0 t1 m a cs) = .mapping (childFold cs []) := by
  cases cs with
  | nil => exact absurd rfl h
  | cons c cs => simp [item_to_dict]

/-- One fully expanded child of the lazy tree: its label survives, no
placeholder remains anywhere below it, and — when the source value is
well formed — converting it back yields the flattened source value. -/
theorem expand_childOf_spec (fuel : Nat) : ∀ (k : String) (v : Value),
    depthV v ≤ fuel →
    (expandAllItems fuel (childOf k v)).text0 = k ∧
    noMarkerDeep (expandAllItems fuel (childOf k v)) = true ∧
    (wfV v = true → item_to_dict (expandAllItems fuel (childOf k v)) = flattenV v) := by
  induction fuel with
  | zero =>
    intro k v hd
    cases v with
    | scalar s => exact ⟨rfl, rfl, fun _ => rfl⟩
    | mapping es => simp [depthV] at hd
    | sequence xs => simp [depthV] at hd
  | succ fuel ih =>
    intro k v hd
    cases v with
    | scalar s => exact ⟨rfl, rfl, fun _ => rfl⟩
    | mapping es =>
      have hmem : ∀ p ∈ entriesOf (.mapping es), depthV p.2 ≤ fuel := by
        intro p hp
        have := entriesOf_depth (.mapping es) p hp
        simp only [depthV] at this hd ⊢
        omega
      have hred : expandAllItems (fuel + 1) (childOf k (.mapping es)) =
          .mk k "" false (some .good)
            (((entriesOf (.mapping es)).map fun p => childOf p.1 p.2).map
              (expandAllItems fuel)) := rfl
      refine ⟨by rw [hred]; rfl, ?_, ?_⟩
      · rw [hred]
        simp only [noMarkerDeep, Bool.not_false, Bool.true_and]
        apply noMarkerDeepL_forall
        intro n hn
        simp only [List.map_map, List.mem_map, Function.comp] at hn
        obtain ⟨p, hp, rfl⟩ := hn
        exact (ih p.1 p.2 (hmem p hp)).2.1
      · intro hwf
        have hwf2 := hwf
        simp only [wfV, Bool.and_eq_true] at hwf2
        have hne : es ≠ [] := by
          intro he
          rw [he] at hwf2
          simp at hwf2
        have hnd0 : ((entriesOf (.mapping es)).map Prod.fst).Nodup :=
          (nodupB_iff _).mp hwf2.1.2
        have hlab : ((((entriesOf (.mapping es)).map fun p => childOf p.1 p.2).map
            (expandAllItems fuel)).map Node.text0) =
            (entriesOf (.mapping es)).map Prod.fst := by
          simp only [List.map_map]
          apply List.map_congr_left
          intro p hp
          simpa [Function.comp] using (ih p.1 p.2 (hmem p hp)).1
        have hnd : ((((entriesOf (.mapping es)).map fun p => childOf p.1 p.2).map
            (expandAllItems fuel)).map Node.text0).Nodup := by
          rw [hlab]; exact hnd0
        have hnecs : (((entriesOf (.mapping es)).map fun p => childOf p.1 p.2).map
            (expandAllItems fuel)) ≠ [] := by
          simp only [entriesOf]
          simp [hne]
        have hcf := childFold_nodup_eq
          (((entriesOf (.mapping es)).map fun p => childOf p.1 p.2).map
            (expandAllItems fuel)) [] hnd (fun c _ => rfl)
        have hconv : ((((entriesOf (.mapping es)).map fun p => childOf p.1 p.2).map
            (expandAllItems fuel)).map (fun c => (c.text0, item_to_dict c))) =
            (entriesOf (.mapping es)).map (fun p => (p.1, flattenV p.2)) := by
          simp only [List.map_map]
          apply List.map_congr_left
          intro p hp
          have h1 := (ih p.1 p.2 (hmem p hp)).1
          have h3 := (ih p.1 p.2 (hmem p hp)).2.2 (entriesOf_wf _ p hp hwf)
          simp [Function.comp, h1, h3]
        rw [hred, item_to_dict_cons_children _ _ _ _ _ hnecs, hcf]
        rw [List.nil_append, hconv, ← flattenV_container (.mapping es) rfl]
    | sequence xs =>
      have hmem : ∀ p ∈ entriesOf (.sequence xs), depthV p.2 ≤ fuel := by
        intro p hp
        have := entriesOf_depth (.sequence xs) p hp
        simp only [depthV] at this hd ⊢
        omega
      have hred : expandAllItems (fuel + 1) (childOf k (.sequence xs)) =
          .mk k (listSummary xs.length) false (some .good)
            (((entriesOf (.sequence xs)).map fun p => childOf p.1 p.2).map
              (expandAllItems fuel)) := rfl
      refine ⟨by rw [hred]; rfl, ?_, ?_⟩
      · rw [hred]
        simp only [noMarkerDeep, Bool.not_false, Bool.true_and]
        apply noMarkerDeepL_forall
        intro n hn
        simp only [List.map_map, List.mem_map, Function.comp] at hn
        obtain ⟨p, hp, rfl⟩ := hn
        exact (ih p.1 p.2 (hmem p hp)).2.1
      · intro hwf
        have hwf2 := hwf
        simp only [wfV, Bool.and_eq_true] at hwf2
        have hne : xs ≠ [] := by
          intro he
          rw [he] at hwf2
          simp at hwf2
        have hnd0 : ((entriesOf (.sequence xs)).map Prod.fst).Nodup :=
          (nodupB_iff _).mp hwf2.1.2
        have hlab : ((((entriesOf (.sequence xs)).map fun p => childOf p.1 p.2).map
            (expandAllItems fuel)).map Node.text0) =
            (entriesOf (.sequence xs)).map Prod.fst := by
          simp only [List.map_map]
          apply List.map_congr_left
          intro p hp
          simpa [Function.comp] using (ih p.1 p.2 (hmem p hp)).1
        have hnd : ((((entriesOf (.sequence xs)).map fun p => childOf p.1 p.2).map
            (expandAllItems fuel)).map Node.text0).Nodup := by
          rw [hlab]; exact hnd0
        have hnecs : (((entriesOf (.sequence xs)).map fun p => childOf p.1 p.2).map
            (expandAllItems fuel)) ≠ [] := by
          simp only [entriesOf]
          cases xs with
          | nil => exact absurd rfl hne
          | cons x xs => simp [enumStrFrom]
        have hcf := childFold_nodup_eq
          (((entriesOf (.sequence xs)).map fun p => childOf p.1 p.2).map
            (expandAllItems fuel)) [] hnd (fun c _ => rfl)
        have hconv : ((((entriesOf (.sequence xs)).map fun p => childOf p.1 p.2).map
            (expandAllItems fuel)).map (fun c => (c.text0, item_to_dict c))) =
            (entriesOf (.sequence xs)).map (fun p => (p.1, flattenV p.2)) := by
          simp only [List.map_map]
          apply List.map_congr_left
          intro p hp
          have h1 := (ih p.1 p.2 (hmem p hp)).1
          have h3 := (ih p.1 p.2 (hmem p hp)).2.2 (entriesOf_wf _ p hp hwf)
          simp [Function.comp, h1, h3]
        rw [hred, item_to_dict_cons_children _ _ _ _ _ hnecs, hcf]
        rw [List.nil_append, hconv, ← flattenV_container (.sequence xs) rfl]

/-!
## Claim theorems -/

/-- C1: on values built only from mappings and string scalars, parsing
the serialized document gives back exactly the value (the codec
round-trips on the mapping/scalar fragment). -/
theorem parse_serialize_roundtrip (v : Value) (h : noSeq v = true) :
    parseDoc (serializeB v) = some v := by
  cases v with
  | scalar s => rfl
  | sequence xs => simp [noSeq] at h
  | mapping es =>
    cases es with
    | nil => rfl
    | cons e es2 =>
      obtain ⟨ke, ve⟩ := e
      obtain ⟨l, ls, hl, _, hent⟩ := entriesLines_cons_shape ke ve es2 0
      have hser : serializeB (.mapping ((ke, ve) :: es2)) =
          entriesLines 0 ((ke, ve) :: es2) := rfl
      have hround : parseEntriesF ((l :: ls).length + 1) 0 (l :: ls) =
          some ((ke, ve) :: es2) := by
        rw [← hl]
        exact parseEntriesF_round _ _ _ (by simpa [noSeq] using h) (by omega)
      rw [hser, hl, parseDoc_entry l ls hent, hround]
      rfl

theorem parse_serialize_roundtrip_witness :
    noSeq (Value.mapping [("a", .scalar "1"), ("b", .mapping [("c", .scalar "2")])]) = true ∧
    parseDoc (serializeB
        (.mapping [("a", .scalar "1"), ("b", .mapping [("c", .scalar "2")])])) =
      some (.mapping [("a", .scalar "1"), ("b", .mapping [("c", .scalar "2")])]) :=
  ⟨rfl, parse_serialize_roundtrip
    (.mapping [("a", .scalar "1"), ("b", .mapping [("c", .scalar "2")])]) rfl⟩

/-- C2: `to_value` (the converter `item_to_dict`) returns the displayed
value as a string scalar for childless nodes, and otherwise a mapping
built key-by-key (Python dict semantics) from the children's labels in
child order, each bound to the recursive conversion of that child; no
sequence value is ever produced. -/
theorem to_value_spec (n : Node) :
    item_to_dict n =
      (if n.children.isEmpty then Value.scalar n.text1
       else .mapping (pyDict (n.children.map fun c => (c.text0, item_to_dict c)))) ∧
    noSeq (item_to_dict n) = true := by
  refine ⟨?_, noSeq_item_to_dict n⟩
  match n with
  | .mk t0 t1 m a [] => simp [item_to_dict, Node.children, Node.text1]
  | .mk t0 t1 m a (c :: cs) =>
    simp [item_to_dict, Node.children, pyDict, childFold_eq_foldl]

/-- C3: once a container node's population action has run, the registry
maps the node to the no-op `good`, so dispatching the expand handler on
it a second time returns the state unchanged and raises no error. -/
theorem populate_idempotent (n : Node) (v : Value) (h : n.act = some (.pop v)) :
    expandedNode n = some (populateNode v n) ∧
    expandedNode (populateNode v n) = some (populateNode v n) := by
  constructor
  · simp [expandedNode, h, runAct]
  · cases n with
    | mk t0 t1 m a cs => simp [populateNode, expandedNode, Node.act, runAct]

theorem populate_idempotent_witness :
    (Node.mk "b" "" false (some (.pop (.mapping [("c", .scalar "2")]))) [markerNode]).act =
      some (.pop (.mapping [("c", .scalar "2")])) ∧
    expandedNode (populateNode (.mapping [("c", .scalar "2")])
        (Node.mk "b" "" false (some (.pop (.mapping [("c", .scalar "2")]))) [markerNode])) =
      some (populateNode (.mapping [("c", .scalar "2")])
        (Node.mk "b" "" false (some (.pop (.mapping [("c", .scalar "2")]))) [markerNode])) :=
  ⟨rfl, (populate_idempotent
    (.mk "b" "" false (some (.pop (.mapping [("c", .scalar "2")]))) [markerNode])
    (.mapping [("c", .scalar "2")]) rfl).2⟩

/-- C4: `populate` on a container node holding its placeholder child
leaves zero placeholder children and exactly one real child per entry,
in entry order (insertion order for mappings, index order for
sequences). -/
theorem populate_exact (n : Node) (v : Value) (_hv : v.isContainer = true)
    (hch : n.children = [markerNode]) :
    (populateNode v n).children = (entriesOf v).map (fun p => childOf p.1 p.2) ∧
    (populateNode v n).children.length = (entriesOf v).length ∧
    ∀ c ∈ (populateNode v n).children, c.marker = false := by
  cases n with
  | mk t0 t1 m a cs =>
    simp only [Node.children] at hch
    subst hch
    have hrm : removeMarker [markerNode] = [] := by
      simp [removeMarker, markerNode, Node.marker]
    refine ⟨?_, ?_, ?_⟩
    · simp [populateNode, Node.children, hrm]
    · simp [populateNode, Node.children, hrm]
    · intro c hc
      simp only [populateNode, Node.children, hrm, List.nil_append, List.mem_map] at hc
      obtain ⟨p, hp, rfl⟩ := hc
      exact childOf_marker p.1 p.2

theorem populate_exact_witness :
    (Value.sequence [.scalar "4", .scalar "5"]).isContainer = true ∧
    (Node.mk "e" "" false none [markerNode]).children = [markerNode] ∧
    (populateNode (.sequence [.scalar "4", .scalar "5"])
        (.mk "e" "" false none [markerNode])).children =
      (entriesOf (.sequence [.scalar "4", .scalar "5"])).map (fun p => childOf p.1 p.2) :=
  ⟨rfl, rfl, (populate_exact (.mk "e" "" false none [markerNode])
    (.sequence [.scalar "4", .scalar "5"]) rfl rfl).1⟩

/-- C7: construction treats every mapping-like node as a plain mapping of
its (recursively constructed) entries, independently of its tag; in
particular a `python/object`-tagged node with fields `{x: 1}` parses to
the plain mapping `{"x": "1"}`. -/
theorem maploader_plain_mapping :
    (∀ (tag tag2 : String) (es : List (String × YNode)),
        constructNode (.ymap tag es) = .mapping (constructEntries es) ∧
        constructNode (.ymap tag es) = constructNode (.ymap tag2 es)) ∧
    constructNode (.ymap "tag:yaml.org,2002:python/object:Foo"
        [("x", .yscalar "tag:yaml.org,2002:int" "1")]) =
      .mapping [("x", .scalar "1")] :=
  ⟨fun _ _ _ => ⟨rfl, rfl⟩, rfl⟩

/-- C8: the example document produces root children `a` (leaf showing
"1"), `b` (container, no summary) and `e` (container, summary
"(list with 2 items)") in that order, and expanding `b` yields leaves
`c` showing "2" and `d` showing "3" in that order. -/
theorem example_scenario :
    exampleRoot.children =
      [.mk "a" "1" false (some .good) [],
       .mk "b" "" false
         (some (.pop (.mapping [("c", .scalar "2"), ("d", .scalar "3")]))) [markerNode],
       .mk "e" "(list with 2 items)" false
         (some (.pop (.sequence [.scalar "4", .scalar "5"]))) [markerNode]] ∧
    expandedNode (.mk "b" "" false
        (some (.pop (.mapping [("c", .scalar "2"), ("d", .scalar "3")]))) [markerNode]) =
      some (.mk "b" "" false (some .good)
        [.mk "c" "2" false (some .good) [], .mk "d" "3" false (some .good) []]) :=
  ⟨rfl, rfl⟩

/-- C10: loading a scalar top-level document attaches no children to the
root, and an immediate save serializes the empty mapping, not the
original scalar document. -/
theorem scalar_document_lost (vw : Viewer) (s path : String) (fuel : Nat) :
    (loadOk vw (.scalar s) path fuel).root.children = [] ∧
    tree_to_yaml (loadOk vw (.scalar s) path fuel).root = serializeB (.mapping []) ∧
    serializeB (.mapping []) ≠ serializeB (.scalar s) := by
  have hch : (loadOk vw (.scalar s) path fuel).root.children = [] := by
    cases fuel with
    | zero =>
      simp [loadOk, populateNode, entriesOf, expandAllItems, removeMarker, Node.children]
    | succ f =>
      simp [loadOk, populateNode, entriesOf, expandAllItems, removeMarker,
        Node.children, Node.act, runAct]
  refine ⟨hch, ?_, ?_⟩
  · simp [tree_to_yaml, tree_root_value, hch, childFold]
  · simp [serializeB]

theorem scalar_document_lost_witness :
    (loadOk (Viewer.mk (.mk "" "" false none []) none none)
        (.scalar "x") "p.yaml" 1).root.children = [] ∧
    tree_to_yaml (loadOk (Viewer.mk (.mk "" "" false none []) none none)
        (.scalar "x") "p.yaml" 1).root = serializeB (.mapping []) ∧
    serializeB (.mapping []) ≠ serializeB (.scalar "x") :=
  scalar_document_lost (Viewer.mk (.mk "" "" false none []) none none) "x" "p.yaml" 1

/-- C5: when `load` fails — the file cannot be read or the text does not
parse — no mutation has yet happened, so the tree, registry, recorded
path and cached content are exactly as before the call. -/
theorem load_failure_atomic (vw : Viewer) (readRes : Option (List Line)) (path : String)
    (fuel : Nat) (h : (loadSteps vw readRes path fuel).2 = false) :
    (loadSteps vw readRes path fuel).1 = vw := by
  cases readRes with
  | none => rfl
  | some ls =>
    cases hp : parseDoc ls with
    | none => simp [loadSteps, hp]
    | some v => simp [loadSteps, hp] at h

/-- C9: when sibling nodes share a label, the converter's mapping binds
that label to the conversion of the last such sibling in child order,
and every label appears at most once in the result — the earlier
siblings' values are silently dropped. -/
theorem duplicate_labels_last_wins (n : Node) (k : String)
    (h : k ∈ n.children.map Node.text0) :
    List.lookup k (mapEntries (item_to_dict n)) =
      ((n.children.filter fun c => c.text0 == k).getLast?).map item_to_dict ∧
    ((mapEntries (item_to_dict n)).map Prod.fst).Nodup := by
  cases n with
  | mk t0 t1 m a cs =>
    cases cs with
    | nil => simp [Node.children] at h
    | cons c cs =>
      constructor
      · simp only [item_to_dict, mapEntries, Node.children]
        rw [lookup_childFold]
        cases hlast : ((c :: cs).filter fun x => x.text0 == k).getLast? with
        | some c2 => simp
        | none => simp [List.lookup]
      · simp only [item_to_dict, mapEntries]
        exact childFold_keys_nodup _ _ (by simp)

theorem duplicate_labels_last_wins_witness :
    "k" ∈ (Node.mk "r" "" false none
        [.mk "k" "1" false (some .good) [],
         .mk "k" "2" false (some .good) []]).children.map Node.text0 ∧
    (List.lookup "k" (mapEntries (item_to_dict (Node.mk "r" "" false none
        [.mk "k" "1" false (some .good) [],
         .mk "k" "2" false (some .good) []]))) =
      (((Node.mk "r" "" false none
        [.mk "k" "1" false (some .good) [],
         .mk "k" "2" false (some .good) []]).children.filter
          fun c => c.text0 == "k").getLast?).map item_to_dict ∧
    ((mapEntries (item_to_dict (Node.mk "r" "" false none
        [.mk "k" "1" false (some .good) [],
         .mk "k" "2" false (some .good) []]))).map Prod.fst).Nodup) :=
  ⟨by decide,
   duplicate_labels_last_wins
     (.mk "r" "" false none
       [.mk "k" "1" false (some .good) [], .mk "k" "2" false (some .good) []])
     "k" (by decide)⟩

/-- C6 (amended): after a successful `load(path)`, the recorded current
path equals `path` and no node anywhere in the tree still carries a
placeholder child; moreover an immediate save persists the complete
(sequence-flattened) document provided the top-level value is a mapping
and the document is well formed (nonempty containers, distinct keys) —
scalar top-level documents are not preserved (see the counterexample and
C10). -/
theorem load_expands_all (vw : Viewer) (v : Value) (path : String) (fuel : Nat)
    (hd : depthV v ≤ fuel) (hroot : vw.root.marker = false) :
    (loadOk vw v path fuel).fname = some path ∧
    noMarkerDeep (loadOk vw v path fuel).root = true ∧
    (∀ es, v = .mapping es → wfV v = true →
      tree_root_value (loadOk vw v path fuel).root = flattenV v) := by
  refine ⟨rfl, ?_, ?_⟩
  · cases fuel with
    | zero =>
      cases v with
      | scalar s =>
        have hred : (loadOk vw (.scalar s) path 0).root =
            .mk vw.root.text0 vw.root.text1 vw.root.marker (some .good) [] := rfl
        rw [hred]
        simp [noMarkerDeep, noMarkerDeepL, hroot]
      | mapping es => simp [depthV] at hd
      | sequence xs => simp [depthV] at hd
    | succ f =>
      have hred : (loadOk vw v path (f + 1)).root =
          .mk vw.root.text0 vw.root.text1 vw.root.marker (some .good)
            (((entriesOf v).map fun p => childOf p.1 p.2).map (expandAllItems f)) := rfl
      rw [hred]
      simp only [noMarkerDeep, hroot, Bool.not_false, Bool.true_and]
      apply noMarkerDeepL_forall
      intro n hn
      simp only [List.map_map, List.mem_map, Function.comp] at hn
      obtain ⟨p, hp, rfl⟩ := hn
      have hdp : depthV p.2 ≤ f := by
        have := entriesOf_depth v p hp
        omega
      exact (expand_childOf_spec f p.1 p.2 hdp).2.1
  · intro es hv hwf
    subst hv
    cases fuel with
    | zero => simp [depthV] at hd
    | succ f =>
      have hred : (loadOk vw (.mapping es) path (f + 1)).root =
          .mk vw.root.text0 vw.root.text1 vw.root.marker (some .good)
            ((es.map fun p => childOf p.1 p.2).map (expandAllItems f)) := rfl
      have hmem : ∀ p ∈ es, depthV p.2 ≤ f := by
        intro p hp
        have := entriesOf_depth (.mapping es) p (by simpa [entriesOf] using hp)
        simp only [depthV] at this hd
        omega
      have hwf2 := hwf
      simp only [wfV, Bool.and_eq_true] at hwf2
      have hnd0 : (es.map Prod.fst).Nodup :=
        (nodupB_iff _).mp (by simpa [entriesOf] using hwf2.1.2)
      have hlab : (((es.map fun p => childOf p.1 p.2).map (expandAllItems f)).map
          Node.text0) = es.map Prod.fst := by
        simp only [List.map_map]
        apply List.map_congr_left
        intro p hp
        simpa [Function.comp] using (expand_childOf_spec f p.1 p.2 (hmem p hp)).1
      have hnd : (((es.map fun p => childOf p.1 p.2).map (expandAllItems f)).map
          Node.text0).Nodup := by
        rw [hlab]; exact hnd0
      have hcf := childFold_nodup_eq
        ((es.map fun p => childOf p.1 p.2).map (expandAllItems f)) [] hnd
        (fun c _ => rfl)
      have hconv : (((es.map fun p => childOf p.1 p.2).map (expandAllItems f)).map
          (fun c => (c.text0, item_to_dict c))) =
          es.map (fun p => (p.1, flattenV p.2)) := by
        simp only [List.map_map]
        apply List.map_congr_left
        intro p hp
        have h1 := (expand_childOf_spec f p.1 p.2 (hmem p hp)).1
        have h3 := (expand_childOf_spec f p.1 p.2 (hmem p hp)).2.2
          (entriesOf_wf (.mapping es) p (by simpa [entriesOf] using hp) hwf)
        simp [Function.comp, h1, h3]
      rw [hred]
      simp only [tree_root_value, Node.children]
      rw [hcf, List.nil_append, hconv]
      simp [flattenV, flattenL_eq_map]

theorem load_expands_all_witness :
    depthV exampleDoc ≤ 2 ∧
    (Viewer.mk (.mk "" "" false none []) none none).root.marker = false ∧
    (loadOk (Viewer.mk (.mk "" "" false none []) none none)
        exampleDoc "doc.yaml" 2).fname = some "doc.yaml" ∧
    noMarkerDeep (loadOk (Viewer.mk (.mk "" "" false none []) none none)
        exampleDoc "doc.yaml" 2).root = true ∧
    tree_root_value (loadOk (Viewer.mk (.mk "" "" false none []) none none)
        exampleDoc "doc.yaml" 2).root = flattenV exampleDoc := by
  have h := load_expands_all (Viewer.mk (.mk "" "" false none []) none none)
    exampleDoc "doc.yaml" 2 (by decide) rfl
  exact ⟨by decide, rfl, h.1, h.2.1, h.2.2 _ rfl (by decide)⟩

/-- C6 counterexample: loading a scalar document succeeds, yet an
immediate save does not persist the document — the saved tree value is
the empty mapping, not the (flattened) original. -/
theorem load_scalar_save_incomplete :
    tree_root_value (loadOk (Viewer.mk (.mk "" "" false none []) none none)
        (.scalar "x") "doc.yaml" 1).root ≠ flattenV (.scalar "x") := by
  intro h
  have h2 : Value.mapping [] = Value.scalar "x" := h
  exact Value.noConfusion h2

theorem load_failure_atomic_witness :
    (loadSteps ⟨.mk "" "" false none [], none, none⟩
        (some [.entryBlock 0 "k"]) "doc.yaml" 3).2 = false ∧
    (loadSteps ⟨.mk "" "" false none [], none, none⟩
        (some [.entryBlock 0 "k"]) "doc.yaml" 3).1 =
      ⟨.mk "" "" false none [], none, none⟩ :=
  ⟨rfl, load_failure_atomic _ _ _ _ rfl⟩
